import Mathlib

/-!
Verification of the BusTub storage and indexing core: shallow embeddings of
the LRU replacer, the buffer pool manager, the B+Tree insert and search
paths, the index iterator, and the executor initialisation code, together
with theorems settling the behavioural claims about them.

Keys, values, page ids and frame ids are modelled as Nat or Int; the
generic key comparator is instantiated with the natural order on Nat.
-/

/-! ## Executor initialisation (insert_executor.cpp, delete_executor.cpp)

Both Init methods run the statement
  index_info_ = exec_ctx_->GetCatalog()->GetTableIndexes(table_meta_->name_)[0];
(insert_executor.cpp line 28, delete_executor.cpp line 25).  The catalog's
index list for the table is modelled as a Lean list; the vector subscript 0
is in bounds exactly when the list is nonempty, so the embedding returns an
error on the empty list, marking the out-of-bounds access. -/

def executorInitIndexInfo (indexes : List α) : Except String α :=
  match indexes with
  | [] => .error "vector subscript 0 out of range: table has no indexes"
  | i :: _ => .ok i

/-! ## Root page id persistence (b_plus_tree.cpp)

The tree keeps the in-memory root_page_id_ and persists it into the header
page through UpdateRootPageId (lines 528-538): both the insert_record and
the update_record branch store the current root_page_id_ under the index
name, modelled as the single field headerRecord.  Each code path that
mutates root_page_id_ is embedded as a state transformer recording exactly
the calls that path makes. -/

structure RootMeta where
  rootPageId : Int
  headerRecord : Int
  deriving DecidableEq, Repr

/-- Embeds BPlusTree::UpdateRootPageId (lines 528-538): both branches write
the current root_page_id_ into the header page record for this index. -/
def updateRootPageId (m : RootMeta) : RootMeta :=
  { m with headerRecord := m.rootPageId }

/-- Embeds the root mutation of BPlusTree::StartNewTree (lines 89-99): the
new page id is written to root_page_id_ by NewPage and then
UpdateRootPageId(1) is called. -/
def startNewTreeMeta (newRootId : Int) (m : RootMeta) : RootMeta :=
  updateRootPageId { m with rootPageId := newRootId }

/-- Embeds the root-split branch of BPlusTree::InsertIntoParent
(lines 175-187): a new root page is allocated, root_page_id_ is assigned
the new id (line 184), and the branch returns without calling
UpdateRootPageId, so the header record is left untouched. -/
def insertIntoParentRootSplitMeta (newRootId : Int) (m : RootMeta) : RootMeta :=
  { m with rootPageId := newRootId }

/-- Embeds the root mutation of BPlusTree::AdjustRoot (lines 390-398 and
402-406): root_page_id_ is reassigned and UpdateRootPageId(false) is
called. -/
def adjustRootMeta (newRootId : Int) (m : RootMeta) : RootMeta :=
  updateRootPageId { m with rootPageId := newRootId }

/-! ## Remove with a null transaction (b_plus_tree.cpp lines 217-236)

BPlusTree::Remove unconditionally runs
  transaction->AddIntoDeletedPageSet(delete_page);
(line 232) whenever CoalesceOrRedistribute reports that the leaf page must
be deleted; LockPage and UnlockPage test the transaction for null
(lines 503, 514) but this call does not.  The embedding below covers the
states whose root is a leaf page, where the executed path is: FindLeafPage
returns the root leaf, RemoveAndDeleteRecord runs on it, and
CoalesceOrRedistribute (line 248) immediately delegates to AdjustRoot,
whose leaf branch (lines 401-408) returns true exactly when the leaf
became empty.  The leaf page source file is absent from the repository;
RemoveAndDeleteRecord is modelled from the spec: shift left, and if the
key is absent return the contents unchanged. -/

def removeAndDeleteRecord (kvs : List (Nat × Nat)) (k : Nat) : List (Nat × Nat) :=
  kvs.eraseP (fun p => p.1 == k)

/-- Embeds BPlusTree::Remove for a tree whose root is a leaf holding kvs:
the record is removed, and on underflow AdjustRoot's leaf branch decides
deletion; when the page is deleted, line 232 dereferences the transaction
pointer, which is an error when the caller passed nullptr.  The returned
pair is the remaining leaf contents (none when the whole tree was deleted)
and the transaction's deleted page set. -/
def removeRootLeaf (kvs : List (Nat × Nat)) (minSize : Nat) (rootId : Int)
    (k : Nat) (txn : Option (List Int)) :
    Except String (Option (List (Nat × Nat)) × Option (List Int)) :=
  let kvs' := removeAndDeleteRecord kvs k
  if kvs'.length < minSize then
    if kvs'.length = 0 then
      match txn with
      | none => .error "null transaction dereferenced at AddIntoDeletedPageSet"
      | some s => .ok (none, some (rootId :: s))
    else .ok (some kvs', txn)
  else .ok (some kvs', txn)

/-! ## LRU replacer (lru_replacer.cpp)

State of the replacer: lruList is the std::list with the front at the head
of the Lean list; lruMap is the unordered_map from frame id to list
iterator.  Iterators are modelled by giving every pushed list element a
fresh identity eid (drawn from nextEid) and storing that identity in the
map, which captures exactly which list node a stored iterator designates
across later pushes and pops.  avlbPages is kept as Int because the source
decrements it without a lower-bound check. -/

structure LRUEntry where
  eid : Nat
  fid : Int
  isPin : Bool
  deriving DecidableEq, Repr

structure LRUState where
  lruList : List LRUEntry
  lruMap : List (Int × Nat)
  avlb : Int
  nextEid : Nat
  deriving DecidableEq, Repr

def lruEmpty : LRUState := ⟨[], [], 0, 0⟩

def lruLookup (m : List (Int × Nat)) (f : Int) : Option Nat :=
  (m.find? (fun p => p.1 == f)).map (fun p => p.2)

/-- Assignment through unordered_map operator[]: updates the binding when
the key is present and inserts it otherwise. -/
def lruMapSet (m : List (Int × Nat)) (f : Int) (e : Nat) : List (Int × Nat) :=
  match lruLookup m f with
  | some _ => m.map (fun p => if p.1 == f then (f, e) else p)
  | none => (f, e) :: m

def lruMapErase (m : List (Int × Nat)) (f : Int) : List (Int × Nat) :=
  m.filter (fun p => p.1 != f)

/-- Flag of the list node a stored iterator designates; none models a
dangling iterator (the designated node was popped), whose dereference in
the source is undefined behaviour. -/
def lruEntryFlag (l : List LRUEntry) (eid : Nat) : Option Bool :=
  (l.find? (fun en => en.eid == eid)).map (fun en => en.isPin)

/-- Embeds LRUReplacer::Victim (lines 26-36): fails when avlbPages is not
positive or the back entry is pinned; otherwise pops the back, erases its
frame from the map and decrements avlbPages.  back() on an empty list is
undefined behaviour in the source and yields no victim here. -/
def lruVictim (s : LRUState) : Option (Int × LRUState) :=
  if s.avlb ≤ 0 then none
  else
    match s.lruList.getLast? with
    | none => none
    | some back =>
      if back.isPin then none
      else some (back.fid,
        { lruList := s.lruList.dropLast
          lruMap := lruMapErase s.lruMap back.fid
          avlb := s.avlb - 1
          nextEid := s.nextEid })

/-- Embeds LRUReplacer::Pin (lines 39-48): when the frame is in the map, it
reads the frame id of the BACK entry into temp, pops the back, pushes a new
pinned entry for frame_id at the front, assigns lruMap[temp] to the new
front iterator, and decrements avlbPages.  Note the source never erases
frame_id's own entry and never checks whether the frame is already
pinned. -/
def lruPin (s : LRUState) (fid : Int) : LRUState :=
  match lruLookup s.lruMap fid with
  | none => s
  | some _ =>
    match s.lruList.getLast? with
    | none => s
    | some back =>
      { lruList := ⟨s.nextEid, fid, true⟩ :: s.lruList.dropLast
        lruMap := lruMapSet s.lruMap back.fid s.nextEid
        avlb := s.avlb - 1
        nextEid := s.nextEid + 1 }

/-- Embeds LRUReplacer::Unpin (lines 50-61): absent frames are pushed at
the front as unpinned and counted; present frames whose designated node is
pinned are flipped to unpinned and counted; otherwise nothing happens. -/
def lruUnpin (s : LRUState) (fid : Int) : LRUState :=
  match lruLookup s.lruMap fid with
  | none =>
    { lruList := ⟨s.nextEid, fid, false⟩ :: s.lruList
      lruMap := (fid, s.nextEid) :: s.lruMap
      avlb := s.avlb + 1
      nextEid := s.nextEid + 1 }
  | some eid =>
    if lruEntryFlag s.lruList eid = some true then
      { s with
        lruList := s.lruList.map
          (fun en => if en.eid == eid then { en with isPin := false } else en)
        avlb := s.avlb + 1 }
    else s

def lruSize (s : LRUState) : Int := s.avlb

/-! ## Buffer pool manager (buffer_pool_manager.cpp)

Frames are the pages_ array (Lean list indexed by frame id); the page
table and the disk are association lists; page contents are modelled by a
single data token per page (0 after ResetMemory, the disk's value after
ReadPage).  DeallocatePage calls are recorded in the deallocated list. -/

structure PageFrame where
  pageId : Int
  pinCount : Int
  isDirty : Bool
  data : Nat
  deriving DecidableEq, Repr

structure BufferPoolManager where
  pages : List PageFrame
  pageTable : List (Int × Int)
  freeList : List Int
  replacer : LRUState
  disk : List (Int × Nat)
  deallocated : List Int
  deriving DecidableEq, Repr

def tblFind (m : List (Int × α)) (k : Int) : Option α :=
  (m.find? (fun p => p.1 == k)).map (fun p => p.2)

def tblErase (m : List (Int × α)) (k : Int) : List (Int × α) :=
  m.filter (fun p => p.1 != k)

/-- unordered_map emplace: inserts only when the key is absent. -/
def tblEmplace (m : List (Int × α)) (k : Int) (v : α) : List (Int × α) :=
  match tblFind m k with
  | some _ => m
  | none => (k, v) :: m

/-- Overwriting store for the disk: WritePage replaces the page image. -/
def tblStore (m : List (Int × α)) (k : Int) (v : α) : List (Int × α) :=
  match tblFind m k with
  | some _ => m.map (fun p => if p.1 == k then (k, v) else p)
  | none => (k, v) :: m

def defaultFrame : PageFrame := ⟨-1, 0, false, 0⟩

def bpmInit (poolSize : Nat) (disk : List (Int × Nat)) : BufferPoolManager :=
  { pages := List.replicate poolSize defaultFrame
    pageTable := []
    freeList := (List.range poolSize).map (fun i => (i : Int))
    replacer := lruEmpty
    disk := disk
    deallocated := [] }

/-- Embeds BufferPoolManager::FlushPageImpl (lines 173-189): false for
INVALID_PAGE_ID or a page-table miss; otherwise writes the frame's data to
disk and clears its dirty bit. -/
def flushPage (s : BufferPoolManager) (pid : Int) : BufferPoolManager × Bool :=
  if pid = -1 then (s, false)
  else
    match tblFind s.pageTable pid with
    | none => (s, false)
    | some f =>
      let fr := s.pages.getD f.toNat defaultFrame
      ({ s with
          disk := tblStore s.disk pid fr.data
          pages := s.pages.set f.toNat { fr with isDirty := false } }, true)

/-- Common tail of FetchPageImpl (lines 139-146): emplace the new mapping,
reset the frame, clear dirty, set pin count 1 and the page id, and read the
page image from disk. -/
def bpmInstall (s : BufferPoolManager) (pid : Int) (f : Int) : BufferPoolManager :=
  { s with
      pageTable := tblEmplace s.pageTable pid f
      pages := s.pages.set f.toNat
        { pageId := pid, pinCount := 1, isDirty := false
          data := (tblFind s.disk pid).getD 0 } }

/-- Embeds BufferPoolManager::FetchPageImpl (lines 105-148).  On a page
table hit the pin count is incremented.  Otherwise a frame comes from the
free list, else from the replacer victim; in the victim branch the local
replace_page_id is assigned only under the is_dirty test (line 132), so
when the victim frame is clean the subsequent page_table_.erase reads it
uninitialized; the parameter junk stands for that indeterminate value.
Returns the new state and the frame id of the returned page. -/
def fetchPage (s : BufferPoolManager) (pid : Int) (junk : Int) :
    Option (BufferPoolManager × Int) :=
  match tblFind s.pageTable pid with
  | some f =>
    let fr := s.pages.getD f.toNat defaultFrame
    some ({ s with pages := s.pages.set f.toNat { fr with pinCount := fr.pinCount + 1 } }, f)
  | none =>
    match s.freeList with
    | f :: rest => some (bpmInstall { s with freeList := rest } pid f, f)
    | [] =>
      match lruVictim s.replacer with
      | none => none
      | some (f, rep') =>
        let s1 := { s with replacer := rep' }
        let fr := s1.pages.getD f.toNat defaultFrame
        let s2 := if fr.isDirty then (flushPage s1 fr.pageId).1 else s1
        let erasedId := if fr.isDirty then fr.pageId else junk
        let s3 := { s2 with pageTable := tblErase s2.pageTable erasedId }
        some (bpmInstall s3 pid f, f)

/-- Embeds BufferPoolManager::UnpinPageImpl (lines 150-171): false on a
miss or a non-positive pin count; otherwise OR-accumulates the dirty bit,
decrements the pin count, and hands the frame to the replacer when the pin
count reaches zero. -/
def unpinPage (s : BufferPoolManager) (pid : Int) (dirty : Bool) :
    BufferPoolManager × Bool :=
  match tblFind s.pageTable pid with
  | none => (s, false)
  | some f =>
    let fr := s.pages.getD f.toNat defaultFrame
    if fr.pinCount ≤ 0 then (s, false)
    else
      let fr2 := { fr with isDirty := fr.isDirty || dirty, pinCount := fr.pinCount - 1 }
      let s1 := { s with pages := s.pages.set f.toNat fr2 }
      if fr2.pinCount = 0 then
        ({ s1 with replacer := lruUnpin s1.replacer f }, true)
      else (s1, true)

/-- Embeds BufferPoolManager::DeletePageImpl (lines 228-247): true on a
miss; false when the pin count is nonzero; otherwise deallocates the page
on disk, zeroes the frame and appends it to the free list.  The method
body contains no page_table_.erase call, so the mapping is kept. -/
def deletePage (s : BufferPoolManager) (pid : Int) : BufferPoolManager × Bool :=
  match tblFind s.pageTable pid with
  | none => (s, true)
  | some f =>
    let fr := s.pages.getD f.toNat defaultFrame
    if fr.pinCount ≠ 0 then (s, false)
    else
      ({ s with
          deallocated := pid :: s.deallocated
          pages := s.pages.set f.toNat { fr with data := 0 }
          freeList := s.freeList ++ [f] }, true)

/-- Buffer pool with a single frame after fetching page 1 from disk
(disk holds pages 1 and 2 with images 11 and 22). -/
def bpmTrace1 : BufferPoolManager :=
  ((fetchPage (bpmInit 1 [(1, 11), (2, 22)]) 1 7).getD (bpmInit 1 [], 0)).1

/-- The same pool after unpinning page 1 clean: frame 0 holds page 1 with
pin count 0, dirty false, and the replacer owns frame 0. -/
def bpmTrace2 : BufferPoolManager := (unpinPage bpmTrace1 1 false).1

/-! ## Index iterator (index_iterator.cpp)

The iterator holds a leaf node pointer and an index into it; leaves hold
their key-value entries and the next_page_id link (INVALID_PAGE_ID = -1).
The buffer pool is abstracted to the store mapping page ids to leaves,
which is all the iterator reads from it. -/

structure LeafPage where
  entries : List (Nat × Nat)
  nextPageId : Int
  deriving DecidableEq, Repr

abbrev LeafStore := List (Int × LeafPage)

structure IterState where
  node : Option LeafPage
  index : Int
  deriving DecidableEq, Repr

/-- Embeds IndexIterator::isEnd (line 23): true when the index is at or
past the last entry AND the leaf has no successor.  A null node (as
produced by advancing past the end) reads fields of a null pointer in the
source; it is treated as the end state here. -/
def iterIsEnd (it : IterState) : Bool :=
  match it.node with
  | none => true
  | some n => (n.entries.length : Int) - 1 ≤ it.index && n.nextPageId == -1

/-- Embeds operator* (line 28): GetItem(index_) on the current leaf. -/
def iterGet (it : IterState) : Option (Nat × Nat) :=
  match it.node with
  | none => none
  | some n => if 0 ≤ it.index then n.entries[it.index.toNat]? else none

/-- Embeds operator++ (lines 32-47): at the end the node becomes null and
the index -1; otherwise the index advances, and on leaving the leaf the
next page is fetched and the index resets to 0. -/
def iterInc (store : LeafStore) (it : IterState) : IterState :=
  if iterIsEnd it then ⟨none, -1⟩
  else
    match it.node with
    | none => it
    | some n =>
      let i2 := it.index + 1
      if (n.entries.length : Int) ≤ i2 then
        match tblFind store n.nextPageId with
        | some n2 => ⟨some n2, 0⟩
        | none => ⟨none, 0⟩
      else ⟨some n, i2⟩

/-- The claimed consumption loop: starting from the iterator produced by
begin, repeatedly yield the current entry and advance until isEnd holds.
Fuel bounds the iteration; any fuel at least the number of stored entries
is enough. -/
def iterCollect (store : LeafStore) : Nat → IterState → List (Nat × Nat)
  | 0, _ => []
  | fuel + 1, it =>
    if iterIsEnd it then []
    else
      match iterGet it with
      | none => []
      | some p => p :: iterCollect store fuel (iterInc store it)

def leafFlat (ls : List LeafPage) : List (Nat × Nat) :=
  (ls.map LeafPage.entries).flatten

/-- The chain of leaves reachable from a page id through next_page_id
links: every leaf is stored under its id, is nonempty, and the last leaf
(and only the last) carries next_page_id = -1. -/
inductive ChainOk (store : LeafStore) : Int → List LeafPage → Prop
  | last (pid : Int) (n : LeafPage) :
      tblFind store pid = some n → n.entries ≠ [] → n.nextPageId = -1 →
      ChainOk store pid [n]
  | cons (pid : Int) (n : LeafPage) (rest : List LeafPage) :
      tblFind store pid = some n → n.entries ≠ [] → n.nextPageId ≠ -1 →
      ChainOk store n.nextPageId rest → ChainOk store pid (n :: rest)

/-! ## B+Tree insert and search (b_plus_tree.cpp, b_plus_tree_internal_page.cpp)

Keys and record values are Nat; the key comparator is the natural order.
A node is a leaf with its sorted key-value array, or an internal node: the
key slot at index 0 is unused in the source, so an internal node is
modelled as its child 0 plus the keyed tail (key i, child i) for i from 1.
The page indirection (page ids, parent pointers, pins and latches) carries
no information for the value map computed by Insert and GetValue and is
dropped; the insertion recursion returns the split information that the
source propagates through InsertIntoParent via parent pointers. -/

inductive BPTNode where
  | leaf (kvs : List (Nat × Nat))
  | internal (c0 : BPTNode) (rest : List (Nat × BPTNode))

/-- Leaf Lookup: exact key match (the leaf page source file is absent from
the repository; modelled from the spec: exact match via the comparator). -/
def leafLookup (kvs : List (Nat × Nat)) (k : Nat) : Option Nat :=
  (kvs.find? (fun p => p.1 == k)).map (fun p => p.2)

/-- Leaf Insert: insert at the key_index position, the smallest index whose
key is at least k, shifting the remainder right (leaf page source absent;
modelled from the spec). -/
def leafInsert (kvs : List (Nat × Nat)) (k v : Nat) : List (Nat × Nat) :=
  match kvs with
  | [] => [(k, v)]
  | (k1, v1) :: rest =>
    if k ≤ k1 then (k, v) :: (k1, v1) :: rest
    else (k1, v1) :: leafInsert rest k v

/-- Embeds BPlusTreeInternalPage::Lookup (lines 82-91): the running child
starts at child 0 and the scan over keys 1..size-1 stops at the first key
above k, returning the child recorded so far. -/
def pickChild (k : Nat) (c : BPTNode) : List (Nat × BPTNode) → BPTNode
  | [] => c
  | (k1, c1) :: rest => if k < k1 then c else pickChild k c1 rest

/-- Embeds BPlusTree::GetValue together with FindLeafPage (lines 45-62 and
462-494): descend from the node through internal Lookup to the leaf, then
look the key up there. -/
def getValue (t : BPTNode) (k : Nat) : Option Nat :=
  match t with
  | .leaf kvs => leafLookup kvs k
  | .internal c0 rest => getValue (pickChild k c0 rest) k
termination_by sizeOf t
decreasing_by
  have hpc : ∀ (l : List (Nat × BPTNode)) (c : BPTNode),
      sizeOf (pickChild k c l) < 1 + sizeOf c + sizeOf l := by
    intro l
    induction l with
    | nil => intro c; simp [pickChild]; omega
    | cons e l ih =>
      intro c
      obtain ⟨k1, c1⟩ := e
      rw [pickChild]
      by_cases h : k < k1
      · rw [if_pos h]; simp; omega
      · rw [if_neg h]
        have := ih c1
        simp
        omega
  have := hpc rest c0
  simp
  omega

/-- Result of the recursive insertion into a subtree: duplicate key, an
updated node, or an overflow split into left node, separator and right
node (the pair InsertIntoParent receives). -/
inductive InsRes where
  | dup
  | one (t : BPTNode)
  | split (l : BPTNode) (sep : Nat) (r : BPTNode)

/-- Result of updating the keyed tail of an internal node: duplicate key,
the rebuilt child 0 and tail with the same entry count, or with one new
entry spliced in by InsertNodeAfter after a child split. -/
inductive WalkRes where
  | dup
  | same (c0 : BPTNode) (rest : List (Nat × BPTNode))
  | grown (c0 : BPTNode) (rest : List (Nat × BPTNode))

/-- Embeds the leaf split of InsertIntoLeaf (lines 125-133) with leaf
MoveHalfTo (absent leaf source; modelled from the spec with the same
arithmetic as internal MoveHalfTo, lines 135-141): the leaf keeps its
first size/2 entries, the new right leaf receives the rest, and the
separator handed to InsertIntoParent is the new leaf's KeyAt(0). -/
def splitLeaf (kvs : List (Nat × Nat)) : InsRes :=
  let remain := kvs.length / 2
  .split (.leaf (kvs.take remain)) (((kvs.drop remain).headD (0, 0)).1)
    (.leaf (kvs.drop remain))

/-- Embeds the internal split of InsertIntoParent (lines 196-202) with
internal MoveHalfTo (lines 135-141): of the m = 1 + rest.length entries,
the node keeps the first m/2 and the new page receives the remaining
ceil(m/2); the separator is the new page's KeyAt(0), the first moved key,
which stays behind in the new page's unused slot 0 (here: the moved
entry's child becomes the new page's child 0). -/
def splitInternal (c0 : BPTNode) (rest : List (Nat × BPTNode)) : InsRes :=
  let remain := (1 + rest.length) / 2
  let moved := rest.getD (remain - 1) (0, .leaf [])
  .split (.internal c0 (rest.take (remain - 1))) moved.1
    (.internal moved.2 (rest.drop remain))

mutual

/-- Embeds the insertion path into a subtree: at a leaf, InsertIntoLeaf
(lines 110-137: reject a duplicate, insert, split past leaf_max_size); at
an internal node, the child chosen by Lookup is updated and an overflowing
InsertNodeAfter result (parent_size above internal_max_size, lines
195-201) splits the node. -/
def insertTree (t : BPTNode) (k v lmax imax : Nat) : InsRes :=
  match t with
  | .leaf kvs =>
    match leafLookup kvs k with
    | some _ => .dup
    | none =>
      let kvs2 := leafInsert kvs k v
      if lmax < kvs2.length then splitLeaf kvs2 else .one (.leaf kvs2)
  | .internal c0 rest =>
    match insertWalk c0 rest k v lmax imax with
    | .dup => .dup
    | .same c2 rest2 => .one (.internal c2 rest2)
    | .grown c2 rest2 =>
      if imax < 1 + rest2.length then splitInternal c2 rest2
      else .one (.internal c2 rest2)
termination_by sizeOf t

/-- Walks the keyed tail with the scan of internal Lookup, recursing into
the chosen child; a child split inserts the separator and the new child
directly after the old child, as InsertNodeAfter (lines 115-126) does at
the index found by ValueIndex. -/
def insertWalk (c : BPTNode) (rest : List (Nat × BPTNode)) (k v lmax imax : Nat) :
    WalkRes :=
  match rest with
  | [] =>
    match insertTree c k v lmax imax with
    | .dup => .dup
    | .one c2 => .same c2 []
    | .split l s r => .grown l [(s, r)]
  | (k1, c1) :: rest1 =>
    if k < k1 then
      match insertTree c k v lmax imax with
      | .dup => .dup
      | .one c2 => .same c2 ((k1, c1) :: rest1)
      | .split l s r => .grown l ((s, r) :: (k1, c1) :: rest1)
    else
      match insertWalk c1 rest1 k v lmax imax with
      | .dup => .dup
      | .same c2 rest2 => .same c ((k1, c2) :: rest2)
      | .grown c2 rest2 => .grown c ((k1, c2) :: rest2)
termination_by sizeOf c + sizeOf rest

end

/-- Embeds BPlusTree::Insert (lines 74-81): an empty tree starts a new
root leaf (StartNewTree, lines 88-99); otherwise the tree is inserted
into, and a split that reaches the root builds the new root through
PopulateNewRoot (InsertIntoParent lines 175-187, internal page lines
102-108).  Returns the source's boolean result and the new tree. -/
def insertB (t : Option BPTNode) (k v lmax imax : Nat) : Bool × Option BPTNode :=
  match t with
  | none => (true, some (.leaf [(k, v)]))
  | some root =>
    match insertTree root k v lmax imax with
    | .dup => (false, some root)
    | .one r2 => (true, some r2)
    | .split l s r => (true, some (.internal l [(s, r)]))

/-- Embeds the empty-tree guard of BPlusTree::GetValue (line 48). -/
def getValueB (t : Option BPTNode) (k : Nat) : Option Nat :=
  match t with
  | none => none
  | some root => getValue root k

/-- The tree obtained by inserting the given key-value pairs in order into
the empty tree. -/
def insertList (ops : List (Nat × Nat)) (lmax imax : Nat) : Option BPTNode :=
  ops.foldl (fun s kv => (insertB s kv.1 kv.2 lmax imax).2) none

/-- A tree state reachable from the empty tree by some insertion
sequence. -/
def Reachable (lmax imax : Nat) (t : Option BPTNode) : Prop :=
  ∃ ops : List (Nat × Nat), t = insertList ops lmax imax

/-! ### Well-formedness: sorted leaves, ascending separators, and
separator bounds, exactly the shape the descent of Lookup relies on. -/

def keyLB : Option Nat → Nat → Prop
  | none, _ => True
  | some l, k => l ≤ k

def sepLB : Option Nat → Nat → Prop
  | none, _ => True
  | some l, k => l < k

def keyUB : Nat → Option Nat → Prop
  | _, none => True
  | k, some h => k < h

def inKeyRange (lo hi : Option Nat) (k : Nat) : Prop := keyLB lo k ∧ keyUB k hi

def inSepRange (lo hi : Option Nat) (k : Nat) : Prop := sepLB lo k ∧ keyUB k hi

mutual

inductive WF : Option Nat → Option Nat → BPTNode → Prop
  | leaf (lo hi : Option Nat) (kvs : List (Nat × Nat)) :
      List.Pairwise (· < ·) (kvs.map Prod.fst) →
      (∀ p ∈ kvs, keyLB lo p.1 ∧ keyUB p.1 hi) →
      WF lo hi (.leaf kvs)
  | internal (lo hi : Option Nat) (c0 : BPTNode) (rest : List (Nat × BPTNode)) :
      WFRest lo hi c0 rest → WF lo hi (.internal c0 rest)

inductive WFRest : Option Nat → Option Nat → BPTNode → List (Nat × BPTNode) → Prop
  | nil (lo hi : Option Nat) (c : BPTNode) : WF lo hi c → WFRest lo hi c []
  | cons (lo hi : Option Nat) (c : BPTNode) (k1 : Nat) (c1 : BPTNode)
      (rest : List (Nat × BPTNode)) :
      WF lo (some k1) c → sepLB lo k1 → keyUB k1 hi →
      WFRest (some k1) hi c1 rest →
      WFRest lo hi c ((k1, c1) :: rest)

end

/-- A tree state is well formed when its root, if any, is well formed with
unconstrained bounds. -/
def WFTree (t : Option BPTNode) : Prop :=
  ∀ root, t = some root → WF none none root

/-- What the recursive insertion guarantees on a subtree with key bounds
(lo, hi): a duplicate changes nothing; an updated node is well formed and
contains the new binding; a split yields two well-formed halves around a
separator inside the bounds, with the binding findable on the side the
separator comparison selects. -/
def TreeConcl (lo hi : Option Nat) (k v : Nat) : InsRes → Prop
  | .dup => True
  | .one t2 => WF lo hi t2 ∧ getValue t2 k = some v
  | .split l s r =>
      WF lo (some s) l ∧ WF (some s) hi r ∧ inSepRange lo hi s ∧
      (k < s → getValue l k = some v) ∧ (s ≤ k → getValue r k = some v)

/-- The corresponding guarantee for the keyed-tail walk of an internal
node. -/
def WalkConcl (lo hi : Option Nat) (k v : Nat) : WalkRes → Prop
  | .dup => True
  | .same c2 rest2 =>
      WFRest lo hi c2 rest2 ∧ getValue (pickChild k c2 rest2) k = some v
  | .grown c2 rest2 =>
      WFRest lo hi c2 rest2 ∧ getValue (pickChild k c2 rest2) k = some v ∧
      rest2 ≠ []

theorem getValue_leaf (kvs : List (Nat × Nat)) (k : Nat) :
    getValue (.leaf kvs) k = leafLookup kvs k := by
  rw [getValue]

theorem getValue_internal (c : BPTNode) (rest : List (Nat × BPTNode)) (k : Nat) :
    getValue (.internal c rest) k = getValue (pickChild k c rest) k := by
  rw [getValue]

theorem sepLB_of_lt {lo : Option Nat} {b a : Nat} (h : sepLB lo b) (h2 : b ≤ a) :
    sepLB lo a := by
  cases lo with
  | none => trivial
  | some l => exact Nat.lt_of_lt_of_le h h2

theorem keyUB_of_le {a b : Nat} {hi : Option Nat} (h2 : a ≤ b) (h : keyUB b hi) :
    keyUB a hi := by
  cases hi with
  | none => trivial
  | some u => exact Nat.lt_of_le_of_lt h2 h

theorem keyLB_of_sepLB {lo : Option Nat} {a : Nat} (h : sepLB lo a) : keyLB lo a := by
  cases lo with
  | none => trivial
  | some l => exact Nat.le_of_lt h

theorem wfrest_sep_ub :
    ∀ (rest : List (Nat × BPTNode)) (lo hi : Option Nat) (c : BPTNode),
      WFRest lo hi c rest → ∀ a ∈ rest.map Prod.fst, keyUB a hi := by
  intro rest
  induction rest with
  | nil => intro lo hi c h a ha; simp at ha
  | cons e rest ih =>
    intro lo hi c h a ha
    cases h with
    | cons lo hi c k1 c1 rest hwf hslb hub hrest =>
      rcases List.mem_cons.mp ha with rfl | ha2
      · exact hub
      · exact ih (some k1) hi c1 hrest _ ha2

theorem wfrest_sep_lb :
    ∀ (rest : List (Nat × BPTNode)) (lo hi : Option Nat) (c : BPTNode),
      WFRest lo hi c rest → ∀ a ∈ rest.map Prod.fst, sepLB lo a := by
  intro rest
  induction rest with
  | nil => intro lo hi c h a ha; simp at ha
  | cons e rest ih =>
    intro lo hi c h a ha
    cases h with
    | cons lo hi c k1 c1 rest hwf hslb hub hrest =>
      rcases List.mem_cons.mp ha with rfl | ha2
      · exact hslb
      · have h2 := ih (some k1) hi c1 hrest a ha2
        exact sepLB_of_lt hslb (Nat.le_of_lt h2)

/-- Cutting a well-formed keyed tail at position j: the prefix is well
formed up to the separator there, the suffix from the entry's child is
well formed above it, and the separator lies inside the bounds. -/
theorem wfrest_cut :
    ∀ (rest : List (Nat × BPTNode)) (lo hi : Option Nat) (c : BPTNode),
      WFRest lo hi c rest →
      ∀ (j : Nat) (hj : j < rest.length),
        WFRest lo (some (rest.get ⟨j, hj⟩).1) c (rest.take j) ∧
        WFRest (some (rest.get ⟨j, hj⟩).1) hi (rest.get ⟨j, hj⟩).2
          (rest.drop (j + 1)) ∧
        inSepRange lo hi (rest.get ⟨j, hj⟩).1 := by
  intro rest
  induction rest with
  | nil => intro lo hi c h j hj; simp at hj
  | cons e rest ih =>
    intro lo hi c h j hj
    cases h with
    | cons lo hi c k1 c1 rest hwf hslb hub hrest =>
      match j with
      | 0 =>
        refine ⟨WFRest.nil _ _ _ hwf, ?_, hslb, hub⟩
        simpa using hrest
      | j + 1 =>
        have hj2 : j < rest.length := by simpa using hj
        obtain ⟨h1, h2, h3⟩ := ih (some k1) hi c1 hrest j hj2
        have hkub : keyUB k1 (some (rest.get ⟨j, hj2⟩).1) := h3.1
        refine ⟨?_, ?_, ?_, ?_⟩
        · simpa using WFRest.cons _ _ _ _ _ _ hwf hslb hkub h1
        · simpa using h2
        · exact sepLB_of_lt hslb (Nat.le_of_lt h3.1)
        · exact h3.2

theorem pickChild_append_lt {k s : Nat} {cs : BPTNode} (hks : k < s) :
    ∀ (l1 : List (Nat × BPTNode)) (c : BPTNode) (l2 : List (Nat × BPTNode)),
      pickChild k c (l1 ++ (s, cs) :: l2) = pickChild k c l1 := by
  intro l1
  induction l1 with
  | nil => intro c l2; simp [pickChild, if_pos hks]
  | cons e l1 ih =>
    intro c l2
    match e with
    | (k1, c1) =>
      simp only [List.cons_append, pickChild]
      by_cases h : k < k1
      · rw [if_pos h, if_pos h]
      · rw [if_neg h, if_neg h]
        exact ih c1 l2

theorem pickChild_append_ge {k s : Nat} {cs : BPTNode} (hks : s ≤ k) :
    ∀ (l1 : List (Nat × BPTNode)), (∀ a ∈ l1.map Prod.fst, a ≤ k) →
      ∀ (c : BPTNode) (l2 : List (Nat × BPTNode)),
        pickChild k c (l1 ++ (s, cs) :: l2) = pickChild k cs l2 := by
  intro l1
  induction l1 with
  | nil =>
    intro hall c l2
    simp only [List.nil_append, pickChild]
    rw [if_neg (by omega)]
  | cons e l1 ih =>
    intro hall c l2
    match e with
    | (k1, c1) =>
      have hk1 : k1 ≤ k := hall k1 (by simp)
      simp only [List.cons_append, pickChild]
      rw [if_neg (by omega)]
      exact ih (fun a ha => hall a (by simp [ha])) c1 l2

theorem leafLookup_mem {kvs : List (Nat × Nat)} {k v : Nat}
    (h : leafLookup kvs k = some v) : (k, v) ∈ kvs := by
  simp only [leafLookup, Option.map_eq_some'] at h
  obtain ⟨p, hfind, hv⟩ := h
  have hm := List.mem_of_find?_eq_some hfind
  have hp := List.find?_some hfind
  simp only [beq_iff_eq] at hp
  have hpp : p = (k, v) := by
    cases p with
    | mk a b => simp_all
  exact hpp ▸ hm

theorem leafLookup_some_of_mem {kvs : List (Nat × Nat)} {k v : Nat}
    (hs : List.Pairwise (· < ·) (kvs.map Prod.fst))
    (hm : (k, v) ∈ kvs) : leafLookup kvs k = some v := by
  induction kvs with
  | nil => cases hm
  | cons q rest ih =>
    match q with
    | (k1, v1) =>
      simp only [List.map_cons, List.pairwise_cons] at hs
      rcases List.mem_cons.mp hm with heq | hmem
      · injection heq with ha hb
        subst ha
        subst hb
        simp [leafLookup]
      · by_cases hk : k1 = k
        · exfalso
          have hkm : k ∈ rest.map Prod.fst := List.mem_map.mpr ⟨(k, v), hmem, rfl⟩
          have := hs.1 k hkm
          omega
        · have hb : ¬(((k1, v1) : Nat × Nat).1 == k) = true := by simpa using hk
          simp only [leafLookup] at ih ⊢
          rw [List.find?_cons_of_neg (p := fun q : Nat × Nat => q.1 == k) _ hb]
          exact ih hs.2 hmem

theorem leafLookup_none_iff {kvs : List (Nat × Nat)} {k : Nat} :
    leafLookup kvs k = none ↔ k ∉ kvs.map Prod.fst := by
  simp only [leafLookup, Option.map_eq_none', List.find?_eq_none, beq_iff_eq,
    List.mem_map, not_exists]
  constructor
  · intro h p hcon
    exact h p hcon.1 hcon.2
  · intro h p hp hpk
    exact h p ⟨hp, hpk⟩

theorem leafInsert_subset {kvs : List (Nat × Nat)} {k v : Nat} :
    ∀ p ∈ leafInsert kvs k v, p = (k, v) ∨ p ∈ kvs := by
  induction kvs with
  | nil => intro p hp; simp [leafInsert] at hp; exact Or.inl hp
  | cons q rest ih =>
    match q with
    | (k1, v1) =>
      intro p hp
      rw [leafInsert] at hp
      by_cases h : k ≤ k1
      · rw [if_pos h] at hp
        rcases List.mem_cons.mp hp with rfl | hp2
        · exact Or.inl rfl
        · exact Or.inr hp2
      · rw [if_neg h] at hp
        rcases List.mem_cons.mp hp with rfl | hp2
        · exact Or.inr (List.mem_cons_self _ _)
        · rcases ih p hp2 with h1 | h2
          · exact Or.inl h1
          · exact Or.inr (List.mem_cons_of_mem _ h2)

theorem leafInsert_lookup {kvs : List (Nat × Nat)} {k : Nat} (v : Nat)
    (h : leafLookup kvs k = none) :
    leafLookup (leafInsert kvs k v) k = some v := by
  induction kvs with
  | nil => simp [leafInsert, leafLookup]
  | cons q rest ih =>
    match q with
    | (k1, v1) =>
      rw [leafInsert]
      by_cases hle : k ≤ k1
      · rw [if_pos hle]
        simp [leafLookup, List.find?_cons_of_pos]
      · rw [if_neg hle]
        have hk1 : ¬(((k1, v1) : Nat × Nat).1 == k) = true := by
          simp
          omega
        simp only [leafLookup] at h ih ⊢
        rw [List.find?_cons_of_neg (p := fun q : Nat × Nat => q.1 == k) _ hk1] at h
        rw [List.find?_cons_of_neg (p := fun q : Nat × Nat => q.1 == k) _ hk1]
        exact ih h

theorem leafInsert_sorted {kvs : List (Nat × Nat)} {k : Nat} (v : Nat)
    (hs : List.Pairwise (· < ·) (kvs.map Prod.fst))
    (hk : k ∉ kvs.map Prod.fst) :
    List.Pairwise (· < ·) ((leafInsert kvs k v).map Prod.fst) := by
  induction kvs with
  | nil => simp [leafInsert]
  | cons q rest ih =>
    match q with
    | (k1, v1) =>
      simp only [List.map_cons, List.pairwise_cons] at hs
      simp only [List.map_cons, List.mem_cons, not_or] at hk
      rw [leafInsert]
      by_cases hle : k ≤ k1
      · rw [if_pos hle]
        have hklt : k < k1 := by
          rcases Nat.lt_or_ge k k1 with h1 | h1
          · exact h1
          · exact absurd (Nat.le_antisymm hle h1) hk.1
        simp only [List.map_cons, List.pairwise_cons]
        refine ⟨?_, hs.1, hs.2⟩
        intro b hb
        rcases List.mem_cons.mp hb with rfl | hb2
        · exact hklt
        · exact Nat.lt_trans hklt (hs.1 b hb2)
      · rw [if_neg hle]
        simp only [List.map_cons, List.pairwise_cons]
        refine ⟨?_, ih hs.2 hk.2⟩
        intro b hb
        rcases List.mem_map.mp hb with ⟨p, hp, rfl⟩
        rcases leafInsert_subset p hp with rfl | hp2
        · omega
        · exact hs.1 p.1 (List.mem_map.mpr ⟨p, hp2, rfl⟩)

theorem leafInsert_length {kvs : List (Nat × Nat)} {k : Nat} (v : Nat) :
    (leafInsert kvs k v).length = kvs.length + 1 := by
  induction kvs with
  | nil => rfl
  | cons q rest ih =>
    match q with
    | (k1, v1) =>
      rw [leafInsert]
      by_cases hle : k ≤ k1
      · rw [if_pos hle]; rfl
      · rw [if_neg hle]; simp [ih]

/-- Splitting an oversized sorted leaf meets the split guarantee: both
halves are well formed around the promoted separator (the right half's
first key) and the freshly inserted binding is findable on the correct
side. -/
theorem splitLeaf_concl {lo hi : Option Nat} {k v : Nat} {kvs2 : List (Nat × Nat)}
    (hs : List.Pairwise (· < ·) (kvs2.map Prod.fst))
    (hb : ∀ p ∈ kvs2, keyLB lo p.1 ∧ keyUB p.1 hi)
    (hlen : 2 ≤ kvs2.length)
    (hlook : leafLookup kvs2 k = some v) :
    TreeConcl lo hi k v (splitLeaf kvs2) := by
  have hr1 : 1 ≤ kvs2.length / 2 := by omega
  have hrlt : kvs2.length / 2 < kvs2.length := by omega
  set remain := kvs2.length / 2 with hremdef
  have hdlen : 0 < (kvs2.drop remain).length := by
    rw [List.length_drop]; omega
  obtain ⟨p0, dtl, hd⟩ : ∃ p t, kvs2.drop remain = p :: t := by
    cases hdd : kvs2.drop remain with
    | nil => rw [hdd] at hdlen; simp at hdlen
    | cons a t => exact ⟨a, t, rfl⟩
  obtain ⟨s, sv⟩ := p0
  have hsplit : splitLeaf kvs2 =
      .split (.leaf (kvs2.take remain)) s (.leaf (kvs2.drop remain)) := by
    rw [splitLeaf]
    simp only [← hremdef, hd, List.headD_cons]
  rw [hsplit]
  have htd : kvs2.take remain ++ kvs2.drop remain = kvs2 := List.take_append_drop _ _
  have hks : List.Pairwise (· < ·)
      ((kvs2.take remain).map Prod.fst ++ (kvs2.drop remain).map Prod.fst) := by
    rw [← List.map_append, htd]; exact hs
  obtain ⟨hsl, hsr, hcross⟩ := List.pairwise_append.mp hks
  have hsmem : s ∈ (kvs2.drop remain).map Prod.fst := by simp [hd]
  have htlt : ∀ p ∈ kvs2.take remain, p.1 < s := by
    intro p hp
    exact hcross p.1 (List.mem_map.mpr ⟨p, hp, rfl⟩) s hsmem
  have hdge : ∀ p ∈ kvs2.drop remain, s ≤ p.1 := by
    intro p hp
    rw [hd] at hp hsr
    rcases List.mem_cons.mp hp with rfl | hp2
    · exact Nat.le_refl s
    · simp only [List.map_cons, List.pairwise_cons] at hsr
      exact Nat.le_of_lt (hsr.1 p.1 (List.mem_map.mpr ⟨p, hp2, rfl⟩))
  have hmem3 : (k, v) ∈ kvs2.take remain ++ kvs2.drop remain := by
    rw [htd]; exact leafLookup_mem hlook
  simp only [TreeConcl]
  refine ⟨?_, ?_, ⟨?_, ?_⟩, ?_, ?_⟩
  · exact WF.leaf _ _ _ hsl (fun p hp =>
      ⟨(hb p (List.take_subset _ _ hp)).1, htlt p hp⟩)
  · exact WF.leaf _ _ _ hsr (fun p hp =>
      ⟨hdge p hp, (hb p (List.drop_subset _ _ hp)).2⟩)
  · obtain ⟨q0, ttl, ht⟩ : ∃ p t, kvs2.take remain = p :: t := by
      cases htt : kvs2.take remain with
      | nil =>
        exfalso
        have hlt : (kvs2.take remain).length = remain := by
          rw [List.length_take]; omega
        rw [htt] at hlt
        simp at hlt
        omega
      | cons a t => exact ⟨a, t, rfl⟩
    have hq := htlt q0 (by rw [ht]; simp)
    have hqlb := (hb q0 (List.take_subset _ _ (by rw [ht]; simp))).1
    cases lo with
    | none => trivial
    | some l => exact Nat.lt_of_le_of_lt hqlb hq
  · exact (hb (s, sv) (List.drop_subset _ _ (by rw [hd]; simp))).2
  · intro hklt
    rw [getValue_leaf]
    have hktake : (k, v) ∈ kvs2.take remain := by
      rcases List.mem_append.mp hmem3 with h1 | h1
      · exact h1
      · exact absurd hklt (by have := hdge (k, v) h1; omega)
    exact leafLookup_some_of_mem hsl hktake
  · intro hkge
    rw [getValue_leaf]
    have hkdrop : (k, v) ∈ kvs2.drop remain := by
      rcases List.mem_append.mp hmem3 with h1 | h1
      · exact absurd (htlt (k, v) h1) (by omega)
      · exact h1
    exact leafLookup_some_of_mem hsr hkdrop

/-- Splitting an oversized internal node meets the split guarantee: the
keyed tail is cut at the promoted separator, both halves are well formed,
and the descent for k continues into the correct half. -/
theorem splitInternal_concl {lo hi : Option Nat} {k v : Nat}
    {c2 : BPTNode} {rest2 : List (Nat × BPTNode)}
    (hw : WFRest lo hi c2 rest2) (hne : rest2 ≠ [])
    (hget : getValue (pickChild k c2 rest2) k = some v) :
    TreeConcl lo hi k v (splitInternal c2 rest2) := by
  have hlen1 : 0 < rest2.length := List.length_pos.mpr hne
  have hj : (1 + rest2.length) / 2 - 1 < rest2.length := by omega
  have hrem : (1 + rest2.length) / 2 = ((1 + rest2.length) / 2 - 1) + 1 := by omega
  set j := (1 + rest2.length) / 2 - 1 with hjdef
  obtain ⟨s, cs, hsc⟩ : ∃ s cs, rest2.get ⟨j, hj⟩ = (s, cs) :=
    ⟨(rest2.get ⟨j, hj⟩).1, (rest2.get ⟨j, hj⟩).2, rfl⟩
  have hsplit : splitInternal c2 rest2 =
      .split (.internal c2 (rest2.take j)) s (.internal cs (rest2.drop (j + 1))) := by
    rw [splitInternal]
    simp only [← hjdef]
    rw [hrem]
    rw [List.getD_eq_getElem?_getD, List.getElem?_eq_getElem hj, Option.getD_some]
    rw [List.get_eq_getElem] at hsc
    rw [hsc]
  rw [hsplit]
  obtain ⟨hcutl, hcutr, hsep⟩ := wfrest_cut rest2 lo hi c2 hw j hj
  rw [hsc] at hcutl hcutr hsep
  have htd : rest2.take j ++ (s, cs) :: rest2.drop (j + 1) = rest2 := by
    rw [← hsc, List.get_eq_getElem]
    conv_rhs => rw [← List.take_append_drop j rest2]
    rw [List.drop_eq_getElem_cons hj]
  simp only [TreeConcl]
  refine ⟨WF.internal _ _ _ _ hcutl, WF.internal _ _ _ _ hcutr, hsep, ?_, ?_⟩
  · intro hklt
    rw [getValue_internal]
    have hpc : pickChild k c2 rest2 = pickChild k c2 (rest2.take j) := by
      conv_lhs => rw [← htd]
      exact pickChild_append_lt hklt _ _ _
    rw [← hpc]
    exact hget
  · intro hkge
    rw [getValue_internal]
    have hall : ∀ a ∈ (rest2.take j).map Prod.fst, a ≤ k := by
      intro a ha
      have hub := wfrest_sep_ub _ _ _ _ hcutl a ha
      simp only [keyUB] at hub
      omega
    have hpc : pickChild k c2 rest2 = pickChild k cs (rest2.drop (j + 1)) := by
      conv_lhs => rw [← htd]
      exact pickChild_append_ge hkge _ hall _ _
    rw [← hpc]
    exact hget

/-- Main induction: on every well-formed subtree whose key range admits k,
the insertion recursion meets its guarantee.  N bounds the subtree size so
that the mutually recursive tree and walk statements can be proved by one
strong induction. -/
theorem insertAux (k v lmax imax : Nat) (hl : 1 ≤ lmax) :
    ∀ N : Nat,
      (∀ (t : BPTNode) (lo hi : Option Nat), sizeOf t ≤ N → WF lo hi t →
        inKeyRange lo hi k → TreeConcl lo hi k v (insertTree t k v lmax imax)) ∧
      (∀ (c : BPTNode) (rest : List (Nat × BPTNode)) (lo hi : Option Nat),
        sizeOf c + sizeOf rest ≤ N → WFRest lo hi c rest →
        inKeyRange lo hi k →
        WalkConcl lo hi k v (insertWalk c rest k v lmax imax)) := by
  intro N
  induction N using Nat.strong_induction_on with
  | _ N IH =>
    constructor
    · intro t lo hi hsz hwf hk
      cases t with
      | leaf kvs =>
        cases hwf with
        | leaf _ _ _ hs hb =>
          rw [insertTree]
          cases hlk : leafLookup kvs k with
          | some w => simp only [hlk]; trivial
          | none =>
            simp only [hlk]
            have hknotin : k ∉ kvs.map Prod.fst := leafLookup_none_iff.mp hlk
            have hs2 := leafInsert_sorted v hs hknotin
            have hb2 : ∀ p ∈ leafInsert kvs k v, keyLB lo p.1 ∧ keyUB p.1 hi := by
              intro p hp
              rcases leafInsert_subset p hp with rfl | hp2
              · exact ⟨hk.1, hk.2⟩
              · exact hb p hp2
            have hlook2 := leafInsert_lookup v hlk
            by_cases hov : lmax < (leafInsert kvs k v).length
            · rw [if_pos hov]
              exact splitLeaf_concl hs2 hb2 (by omega) hlook2
            · rw [if_neg hov]
              exact ⟨WF.leaf _ _ _ hs2 hb2, by rw [getValue_leaf]; exact hlook2⟩
      | internal c0 rest =>
        cases hwf with
        | internal _ _ _ _ hwr =>
          rw [insertTree]
          have hm : sizeOf c0 + sizeOf rest < N := by
            have hspec : sizeOf (BPTNode.internal c0 rest) =
                1 + sizeOf c0 + sizeOf rest := by simp
            omega
          have hwalk := (IH _ hm).2 c0 rest lo hi (Nat.le_refl _) hwr hk
          cases hw : insertWalk c0 rest k v lmax imax with
          | dup => simp only [hw]; trivial
          | same c2 rest2 =>
            rw [hw] at hwalk
            simp only [WalkConcl] at hwalk
            simp only [hw]
            exact ⟨WF.internal _ _ _ _ hwalk.1,
              by rw [getValue_internal]; exact hwalk.2⟩
          | grown c2 rest2 =>
            rw [hw] at hwalk
            simp only [WalkConcl] at hwalk
            simp only [hw]
            by_cases hov : imax < 1 + rest2.length
            · rw [if_pos hov]
              exact splitInternal_concl hwalk.1 hwalk.2.2 hwalk.2.1
            · rw [if_neg hov]
              exact ⟨WF.internal _ _ _ _ hwalk.1,
                by rw [getValue_internal]; exact hwalk.2.1⟩
    · intro c rest lo hi hsz hwr hk
      cases rest with
      | nil =>
        cases hwr with
        | nil _ _ _ hwfc =>
          rw [insertWalk]
          have hszc : sizeOf c < N := by
            have hspec : sizeOf ([] : List (Nat × BPTNode)) = 1 := rfl
            omega
          have htree := (IH _ hszc).1 c lo hi (Nat.le_refl _) hwfc hk
          cases ht : insertTree c k v lmax imax with
          | dup => simp only [ht]; trivial
          | one c2 =>
            rw [ht] at htree
            simp only [TreeConcl] at htree
            simp only [ht]
            exact ⟨WFRest.nil _ _ _ htree.1, by simp only [pickChild]; exact htree.2⟩
          | split l s r =>
            rw [ht] at htree
            simp only [TreeConcl] at htree
            obtain ⟨hwl, hwrr, hsep, hcl, hcr⟩ := htree
            simp only [ht]
            refine ⟨WFRest.cons _ _ _ _ _ _ hwl hsep.1 hsep.2
              (WFRest.nil _ _ _ hwrr), ?_, by simp⟩
            simp only [pickChild]
            by_cases hks : k < s
            · rw [if_pos hks]; exact hcl hks
            · rw [if_neg hks]; exact hcr (Nat.le_of_not_lt hks)
      | cons e rest1 =>
        cases hwr with
        | cons _ _ _ k1 c1 _ hwfc hslb hub hrest1 =>
          rw [insertWalk]
          by_cases hklt : k < k1
          · rw [if_pos hklt]
            have hszc : sizeOf c < N := by
              have h1 : sizeOf ((k1, c1) :: rest1) =
                  1 + sizeOf (k1, c1) + sizeOf rest1 := by simp
              omega
            have htree := (IH _ hszc).1 c lo (some k1) (Nat.le_refl _) hwfc
              ⟨hk.1, hklt⟩
            cases ht : insertTree c k v lmax imax with
            | dup => simp only [ht]; trivial
            | one c2 =>
              rw [ht] at htree
              simp only [TreeConcl] at htree
              simp only [ht]
              refine ⟨WFRest.cons _ _ _ _ _ _ htree.1 hslb hub hrest1, ?_⟩
              simp only [pickChild]
              rw [if_pos hklt]
              exact htree.2
            | split l s r =>
              rw [ht] at htree
              simp only [TreeConcl] at htree
              obtain ⟨hwl, hwrr, hsep, hcl, hcr⟩ := htree
              have hsk1 : s < k1 := hsep.2
              simp only [ht]
              refine ⟨?_, ?_, by simp⟩
              · exact WFRest.cons _ _ _ _ _ _ hwl hsep.1
                  (keyUB_of_le (Nat.le_of_lt hsk1) hub)
                  (WFRest.cons _ _ _ _ _ _ hwrr hsk1 hub hrest1)
              · simp only [pickChild]
                by_cases hks : k < s
                · rw [if_pos hks]; exact hcl hks
                · rw [if_neg hks, if_pos hklt]
                  exact hcr (Nat.le_of_not_lt hks)
          · rw [if_neg hklt]
            have hszc : sizeOf c1 + sizeOf rest1 < N := by
              have h1 : sizeOf ((k1, c1) :: rest1) =
                  1 + sizeOf (k1, c1) + sizeOf rest1 := by simp
              have h2 : sizeOf ((k1, c1) : Nat × BPTNode) =
                  1 + sizeOf k1 + sizeOf c1 := by simp
              omega
            have hwalk := (IH _ hszc).2 c1 rest1 (some k1) hi (Nat.le_refl _)
              hrest1 ⟨Nat.le_of_not_lt hklt, hk.2⟩
            cases hw2 : insertWalk c1 rest1 k v lmax imax with
            | dup => simp only [hw2]; trivial
            | same c2 rest2 =>
              rw [hw2] at hwalk
              simp only [WalkConcl] at hwalk
              simp only [hw2]
              refine ⟨WFRest.cons _ _ _ _ _ _ hwfc hslb hub hwalk.1, ?_⟩
              simp only [pickChild]
              rw [if_neg hklt]
              exact hwalk.2
            | grown c2 rest2 =>
              rw [hw2] at hwalk
              simp only [WalkConcl] at hwalk
              simp only [hw2]
              refine ⟨WFRest.cons _ _ _ _ _ _ hwfc hslb hub hwalk.1, ?_, by simp⟩
              simp only [pickChild]
              rw [if_neg hklt]
              exact hwalk.2.1

theorem insertB_preserves_WFTree (k v lmax imax : Nat) (hl : 1 ≤ lmax)
    (t : Option BPTNode) (h : WFTree t) : WFTree (insertB t k v lmax imax).2 := by
  cases t with
  | none =>
    intro root hr
    simp only [insertB] at hr
    injection hr with hr2
    cases hr2
    refine WF.leaf _ _ _ (by simp) ?_
    intro p hp
    exact ⟨trivial, trivial⟩
  | some root0 =>
    have hwf := h root0 rfl
    have hmain := (insertAux k v lmax imax hl (sizeOf root0)).1 root0 none none
      (Nat.le_refl _) hwf ⟨trivial, trivial⟩
    intro root hr
    simp only [insertB] at hr
    cases ht : insertTree root0 k v lmax imax with
    | dup =>
      rw [ht] at hr
      injection hr with hr2
      cases hr2
      exact hwf
    | one r2 =>
      rw [ht] at hr
      injection hr with hr2
      cases hr2
      rw [ht] at hmain
      exact hmain.1
    | split l s r =>
      rw [ht] at hr
      injection hr with hr2
      cases hr2
      rw [ht] at hmain
      simp only [TreeConcl] at hmain
      obtain ⟨hwl, hwrr, hsep, _, _⟩ := hmain
      exact WF.internal _ _ _ _
        (WFRest.cons _ _ _ _ _ _ hwl trivial trivial (WFRest.nil _ _ _ hwrr))

theorem reachable_WFTree (lmax imax : Nat) (hl : 1 ≤ lmax) (t : Option BPTNode)
    (h : Reachable lmax imax t) : WFTree t := by
  obtain ⟨ops, rfl⟩ := h
  suffices hgen : ∀ (l : List (Nat × Nat)) (s : Option BPTNode), WFTree s →
      WFTree (l.foldl (fun s kv => (insertB s kv.1 kv.2 lmax imax).2) s) by
    exact hgen ops none (fun root hr => Option.noConfusion hr)
  intro l
  induction l with
  | nil => intro s hs; exact hs
  | cons op ops2 ih =>
    intro s hs
    rw [List.foldl_cons]
    exact ih _ (insertB_preserves_WFTree op.1 op.2 lmax imax hl s hs)

/-- C1: on every reachable tree state (with the leaf capacity at least 1),
if Insert(k, v) returns true then an immediately following GetValue(k)
returns exactly v; this covers insertions that split a leaf and propagate
splits up to and including a root split, by the induction of insertAux. -/
theorem insert_then_getValue (lmax imax : Nat) (hl : 1 ≤ lmax)
    (t : Option BPTNode) (hreach : Reachable lmax imax t) (k v : Nat)
    (hins : (insertB t k v lmax imax).1 = true) :
    getValueB (insertB t k v lmax imax).2 k = some v := by
  have hwt := reachable_WFTree lmax imax hl t hreach
  cases t with
  | none =>
    simp only [insertB, getValueB]
    rw [getValue_leaf]
    simp [leafLookup]
  | some root =>
    have hwf := hwt root rfl
    have hmain := (insertAux k v lmax imax hl (sizeOf root)).1 root none none
      (Nat.le_refl _) hwf ⟨trivial, trivial⟩
    simp only [insertB] at hins ⊢
    cases ht : insertTree root k v lmax imax with
    | dup => rw [ht] at hins; simp at hins
    | one r2 =>
      rw [ht] at hmain
      simp only [TreeConcl] at hmain
      exact hmain.2
    | split l s r =>
      rw [ht] at hmain
      simp only [TreeConcl] at hmain
      obtain ⟨_, _, _, hcl, hcr⟩ := hmain
      show getValue (BPTNode.internal l [(s, r)]) k = some v
      rw [getValue_internal]
      simp only [pickChild]
      by_cases hks : k < s
      · rw [if_pos hks]; exact hcl hks
      · rw [if_neg hks]; exact hcr (Nat.le_of_not_lt hks)

theorem insert_then_getValue_witness :
    getValueB (insertB (insertList [(1, 10), (2, 20), (3, 30)] 2 2) 4 40 2 2).2 4
      = some 40 := by
  refine insert_then_getValue 2 2 (by omega) _
    ⟨[(1, 10), (2, 20), (3, 30)], rfl⟩ 4 40 ?_
  simp [insertList, insertB, insertTree, insertWalk, leafLookup, leafInsert,
    splitLeaf, splitInternal]

/-- Auxiliary pair for the duplicate-key law: if the key is already stored
in the subtree, the insertion recursion reports a duplicate and builds
nothing. -/
theorem insert_dup_aux :
    ∀ N : Nat,
      (∀ (t : BPTNode) (k v2 lmax imax : Nat), sizeOf t ≤ N →
        (∃ w, getValue t k = some w) → insertTree t k v2 lmax imax = .dup) ∧
      (∀ (c : BPTNode) (rest : List (Nat × BPTNode)) (k v2 lmax imax : Nat),
        sizeOf c + sizeOf rest ≤ N →
        (∃ w, getValue (pickChild k c rest) k = some w) →
        insertWalk c rest k v2 lmax imax = .dup) := by
  intro N
  induction N using Nat.strong_induction_on with
  | _ N IH =>
    constructor
    · intro t k v2 lmax imax hsz hex
      cases t with
      | leaf kvs =>
        obtain ⟨w, hw⟩ := hex
        rw [getValue_leaf] at hw
        rw [insertTree]
        simp only [hw]
      | internal c0 rest =>
        rw [insertTree]
        have hm : sizeOf c0 + sizeOf rest < N := by
          have hspec : sizeOf (BPTNode.internal c0 rest) =
              1 + sizeOf c0 + sizeOf rest := by simp
          omega
        have hex2 : ∃ w, getValue (pickChild k c0 rest) k = some w := by
          obtain ⟨w, hw⟩ := hex
          rw [getValue_internal] at hw
          exact ⟨w, hw⟩
        have hwalk := (IH _ hm).2 c0 rest k v2 lmax imax (Nat.le_refl _) hex2
        simp only [hwalk]
    · intro c rest k v2 lmax imax hsz hex
      cases rest with
      | nil =>
        rw [insertWalk]
        have hszc : sizeOf c < N := by
          have hspec : sizeOf ([] : List (Nat × BPTNode)) = 1 := rfl
          omega
        simp only [pickChild] at hex
        have ht := (IH _ hszc).1 c k v2 lmax imax (Nat.le_refl _) hex
        simp only [ht]
      | cons e rest1 =>
        obtain ⟨k1, c1⟩ := e
        rw [insertWalk]
        by_cases hklt : k < k1
        · rw [if_pos hklt]
          have hszc : sizeOf c < N := by
            have h1 : sizeOf ((k1, c1) :: rest1) =
                1 + sizeOf (k1, c1) + sizeOf rest1 := by simp
            omega
          have hex2 : ∃ w, getValue c k = some w := by
            simp only [pickChild] at hex
            rw [if_pos hklt] at hex
            exact hex
          have ht := (IH _ hszc).1 c k v2 lmax imax (Nat.le_refl _) hex2
          simp only [ht]
        · rw [if_neg hklt]
          have hszc : sizeOf c1 + sizeOf rest1 < N := by
            have h1 : sizeOf ((k1, c1) :: rest1) =
                1 + sizeOf (k1, c1) + sizeOf rest1 := by simp
            have h2 : sizeOf ((k1, c1) : Nat × BPTNode) =
                1 + sizeOf k1 + sizeOf c1 := by simp
            omega
          have hex2 : ∃ w, getValue (pickChild k c1 rest1) k = some w := by
            simp only [pickChild] at hex
            rw [if_neg hklt] at hex
            exact hex
          have hw2 := (IH _ hszc).2 c1 rest1 k v2 lmax imax (Nat.le_refl _) hex2
          simp only [hw2]

/-- C8: a second insertion of an already-stored key returns false and
leaves the tree completely unchanged, whatever value is supplied; in
particular the stored value for the key stays what it was. -/
theorem insert_duplicate_returns_false (lmax imax : Nat) (t : Option BPTNode)
    (k v v2 : Nat) (h : getValueB t k = some v) :
    insertB t k v2 lmax imax = (false, t) := by
  cases t with
  | none => simp [getValueB] at h
  | some root =>
    simp only [getValueB] at h
    have hd := (insert_dup_aux (sizeOf root)).1 root k v2 lmax imax
      (Nat.le_refl _) ⟨v, h⟩
    simp only [insertB, hd]

theorem insert_duplicate_returns_false_witness :
    insertB (some (.leaf [(1, 10), (2, 20)])) 1 99 4 4 =
      (false, some (.leaf [(1, 10), (2, 20)])) := by
  refine insert_duplicate_returns_false 4 4 _ 1 10 99 ?_
  simp only [getValueB]
  rw [getValue_leaf]
  simp [leafLookup]

/-! ### Theorems for executor initialisation and root persistence -/

/-- C9: the Insert and Delete executors do not tolerate a table with zero
indexes: Init unconditionally takes element 0 of the catalog's index list
(insert_executor.cpp line 28, delete_executor.cpp line 25), which is an
out-of-bounds vector access when the list is empty, modelled here as the
error result. -/
theorem executor_init_out_of_bounds_on_zero_indexes :
    executorInitIndexInfo ([] : List Nat) =
      .error "vector subscript 0 out of range: table has no indexes" := rfl

/-- C5: a root split does not persist the new root id: starting from a
state where the header record agrees with root_page_id_ = 1, the
root-split branch of InsertIntoParent with fresh root page 2 leaves the
header record at 1 while root_page_id_ becomes 2, so the persisted root id
differs from the in-memory one; by contrast StartNewTree and AdjustRoot
re-synchronise the header. -/
theorem root_split_does_not_persist_root_id :
    (insertIntoParentRootSplitMeta 2 ⟨1, 1⟩).rootPageId = 2 ∧
    (insertIntoParentRootSplitMeta 2 ⟨1, 1⟩).headerRecord = 1 ∧
    (insertIntoParentRootSplitMeta 2 ⟨1, 1⟩).headerRecord ≠
      (insertIntoParentRootSplitMeta 2 ⟨1, 1⟩).rootPageId ∧
    (startNewTreeMeta 2 ⟨1, 1⟩).headerRecord = (startNewTreeMeta 2 ⟨1, 1⟩).rootPageId ∧
    (adjustRootMeta 3 ⟨1, 1⟩).headerRecord = (adjustRootMeta 3 ⟨1, 1⟩).rootPageId := by
  refine ⟨rfl, rfl, by decide, rfl, rfl⟩

/-- C7: Remove(key, nullptr) dereferences the null transaction as soon as a
page deletion is triggered: on the tree whose root is a leaf with the
single key 5 (minSize 2, root page 1), removing key 5 empties the leaf,
AdjustRoot orders the page deleted, and line 232 of b_plus_tree.cpp calls
AddIntoDeletedPageSet through the null pointer. -/
theorem remove_null_txn_dereference :
    removeRootLeaf [(5, 50)] 2 1 5 none =
      .error "null transaction dereferenced at AddIntoDeletedPageSet" := rfl

/-! ### Theorems for the LRU replacer -/

/-- C4: the replacer invariants fail on reachable states.  After
Unpin(1); Unpin(2); Pin(2), frame 2 occurs twice in the list (Pin popped
the back entry, which held frame 1, instead of frame 2's own node), so the
at-most-once property and Pin moving that same frame are violated; and
after Unpin(1); Pin(1); Pin(1), available is -1 while no list entry is
unpinned, so available does not equal the count of unpinned entries. -/
theorem lru_pin_breaks_invariants :
    ((lruPin (lruUnpin (lruUnpin lruEmpty 1) 2) 2).lruList.map
        (fun e => e.fid) = [2, 2]) ∧
    ((lruPin (lruPin (lruUnpin lruEmpty 1) 1) 1).avlb = -1) ∧
    (((lruPin (lruPin (lruUnpin lruEmpty 1) 1) 1).lruList.filter
        (fun e => !e.isPin)).length = 0) := by
  decide

/-- Flipping the pinned flag of the node designated by eid turns that
node's recorded flag into false and touches no other node's flag. -/
theorem lruEntryFlag_flip (l : List LRUEntry) (eid : Nat) :
    lruEntryFlag
      (l.map (fun en => if en.eid == eid then { en with isPin := false } else en)) eid
      = (lruEntryFlag l eid).map (fun _ => false) := by
  induction l with
  | nil => rfl
  | cons a l ih =>
    by_cases h : a.eid = eid
    · simp [lruEntryFlag, List.find?_cons_of_pos, h]
    · have hb : ¬((a.eid == eid) = true) := by simpa using h
      simp only [lruEntryFlag] at ih ⊢
      rw [List.map_cons, if_neg hb,
        List.find?_cons_of_neg (p := fun en : LRUEntry => en.eid == eid) _ hb,
        List.find?_cons_of_neg (p := fun en : LRUEntry => en.eid == eid) _ hb]
      exact ih

/-- C10: Unpin is idempotent.  When the map has frame f and the node it
designates is already unpinned, Unpin(f) changes nothing; and in every
state whose map entry for f does not dangle, Unpin(f) followed by Unpin(f)
equals a single Unpin(f). -/
theorem lru_unpin_idempotent (s : LRUState) (f : Int)
    (hvalid : ∀ eid, lruLookup s.lruMap f = some eid →
      ∃ e ∈ s.lruList, e.eid = eid) :
    (∀ eid, lruLookup s.lruMap f = some eid →
      lruEntryFlag s.lruList eid = some false → lruUnpin s f = s) ∧
    lruUnpin (lruUnpin s f) f = lruUnpin s f := by
  refine ⟨fun eid heid hflag => ?_, ?_⟩
  · simp only [lruUnpin, heid, hflag]
    simp
  · cases heid : lruLookup s.lruMap f with
    | none =>
      simp only [lruUnpin, heid]
      simp [lruLookup, lruEntryFlag, List.find?_cons_of_pos]
    | some eid =>
      by_cases hflag : lruEntryFlag s.lruList eid = some true
      · have h1 : lruUnpin s f =
            { s with
              lruList := s.lruList.map
                (fun en => if en.eid == eid then { en with isPin := false } else en)
              avlb := s.avlb + 1 } := by
          simp only [lruUnpin, heid, if_pos hflag]
        rw [h1]
        simp only [lruUnpin, heid, lruEntryFlag_flip, hflag]
        simp
      · have h1 : lruUnpin s f = s := by
          simp only [lruUnpin, heid, if_neg hflag]
        simp only [h1]

theorem lru_unpin_idempotent_witness :
    lruUnpin (lruUnpin (lruUnpin lruEmpty 3) 3) 3 = lruUnpin (lruUnpin lruEmpty 3) 3 := by
  have h := lru_unpin_idempotent (lruUnpin lruEmpty 3) 3 (by decide)
  exact h.2

/-! ### Theorems for the buffer pool manager -/

/-- C2: fetching through a clean replacer victim leaves the victim's old
mapping in the page table.  In a one-frame pool, page 1 is fetched and
unpinned clean; fetching page 2 then evicts frame 0 via the replacer, and
since the frame is not dirty, replace_page_id is never assigned before
page_table_.erase(replace_page_id) runs (lines 131-135), so the erase uses
an indeterminate value (7 is one possible run) and the stale mapping
1 to frame 0 survives next to the new mapping 2 to frame 0.  The rest of
the claim does hold on this run: the new mapping is installed and frame 0
has pin count 1, dirty false, and page 2's disk image 22. -/
theorem fetch_clean_victim_keeps_stale_mapping :
    (fetchPage bpmTrace2 2 7).map
        (fun r => (tblFind r.1.pageTable 1, tblFind r.1.pageTable 2, r.2,
          r.1.pages.getD 0 defaultFrame)) =
      some (some 0, some 0, 0, ⟨2, 1, false, 22⟩) := by
  decide

/-- C3: deleting a resident unpinned page does not remove its page-table
mapping.  With page 1 resident in frame 0 at pin count 0, DeletePageImpl
returns true, records the disk deallocation, zeroes the frame and returns
frame 0 to the free list, but afterwards the page table still maps page 1
to frame 0 because the method never erases the entry (lines 234-247). -/
theorem delete_page_keeps_page_table_mapping :
    (deletePage bpmTrace2 1).2 = true ∧
    (deletePage bpmTrace2 1).1.deallocated = [1] ∧
    ((deletePage bpmTrace2 1).1.pages.getD 0 defaultFrame).data = 0 ∧
    (deletePage bpmTrace2 1).1.freeList = [0] ∧
    tblFind (deletePage bpmTrace2 1).1.pageTable 1 = some 0 := by
  decide

/-! ### Theorems for the index iterator -/

theorem dropLast_eq_nil_of_short (l : List α) (h : l.length ≤ 1) : l.dropLast = [] := by
  match l, h with
  | [], _ => rfl
  | [a], _ => rfl

/-- On the final leaf (next_page_id = -1), iterating from position i yields
the entries from i on, except the very last one, because isEnd already
holds while the iterator stands on the last entry. -/
theorem iterCollect_last_leaf (store : LeafStore) (n : LeafPage)
    (hnext : n.nextPageId = -1) :
    ∀ (fuel i : Nat), n.entries.length ≤ i + fuel →
      iterCollect store fuel ⟨some n, (i : Int)⟩ = (n.entries.drop i).dropLast := by
  intro fuel
  induction fuel with
  | zero =>
    intro i hi
    simp only [Nat.add_zero] at hi
    simp [iterCollect, List.drop_eq_nil_of_le hi]
  | succ fuel ihf =>
    intro i hi
    by_cases hend : (n.entries.length : Int) - 1 ≤ (i : Int)
    · have h1 : iterIsEnd ⟨some n, (i : Int)⟩ = true := by
        simp [iterIsEnd, hnext, hend]
      rw [iterCollect, if_pos h1]
      refine (dropLast_eq_nil_of_short _ ?_).symm
      rw [List.length_drop]
      omega
    · have hlt : i + 1 < n.entries.length := by omega
      have h1 : iterIsEnd ⟨some n, (i : Int)⟩ = false := by
        simp [iterIsEnd, hend]
      have hibound : i < n.entries.length := by omega
      have hget : iterGet ⟨some n, (i : Int)⟩ = some n.entries[i] := by
        simp [iterGet, List.getElem?_eq_getElem hibound]
      have hinc : iterInc store ⟨some n, (i : Int)⟩ = ⟨some n, ((i + 1 : Nat) : Int)⟩ := by
        rw [iterInc, if_neg (by simp [h1])]
        simp only []
        rw [if_neg (by omega)]
        simp
      rw [iterCollect, if_neg (by simp [h1]), hget]
      simp only [hinc]
      rw [ihf (i + 1) (by omega)]
      rw [List.drop_eq_getElem_cons hibound]
      cases hdd : n.entries.drop (i + 1) with
      | nil => simp [List.length_drop] at hdd; omega
      | cons b t => rw [List.dropLast_cons₂]

theorem ChainOk.head_shape (h : ChainOk store pid ls) :
    ∃ n rest, ls = n :: rest ∧ tblFind store pid = some n ∧ n.entries ≠ [] := by
  cases h with
  | last pid n hfind hne hnext => exact ⟨n, [], rfl, hfind, hne⟩
  | cons pid n rest hfind hne hnext hchain => exact ⟨n, rest, rfl, hfind, hne⟩

theorem ChainOk.flat_ne_nil (h : ChainOk store pid ls) : leafFlat ls ≠ [] := by
  obtain ⟨n, rest, rfl, _, hne⟩ := h.head_shape
  simp only [leafFlat, List.map_cons, List.flatten_cons]
  intro hcon
  exact hne (List.append_eq_nil.mp hcon).1

/-- Iterating from position i of the first leaf of a well-formed chain
yields the remaining entries of the chain except the very last one. -/
theorem iterCollect_chain (store : LeafStore) :
    ∀ pid leaves, ChainOk store pid leaves →
    ∀ (n : LeafPage) (rest : List LeafPage), leaves = n :: rest →
    ∀ (fuel : Nat), ∀ (i : Nat), i < n.entries.length →
      (leafFlat (n :: rest)).length ≤ i + fuel →
      iterCollect store fuel ⟨some n, (i : Int)⟩ =
        (n.entries.drop i ++ leafFlat rest).dropLast := by
  intro pid leaves h
  induction h with
  | last pid n hfind hne hnext =>
    intro n0 rest heq fuel i hi hfuel
    injection heq with he1 he2
    subst he2
    subst he1
    simp only [leafFlat, List.map_nil, List.flatten_nil, List.append_nil]
    refine iterCollect_last_leaf store n hnext fuel i ?_
    simp [leafFlat] at hfuel
    omega
  | cons pid n rest hfind hne hnext hchain ih =>
    intro n0 rest0 heq fuel
    injection heq with he1 he2
    subst he2
    subst he1
    induction fuel with
    | zero =>
      intro i hi hfuel
      exfalso
      have hflat := hchain.flat_ne_nil
      have : 0 < (leafFlat rest).length := List.length_pos.mpr hflat
      simp [leafFlat] at hfuel
      omega
    | succ fuel ihf =>
      intro i hi hfuel
      have h1 : iterIsEnd ⟨some n, (i : Int)⟩ = false := by
        simp [iterIsEnd, beq_eq_false_iff_ne.mpr hnext]
      have hget : iterGet ⟨some n, (i : Int)⟩ =
          some n.entries[i] := by
        simp [iterGet, List.getElem?_eq_getElem hi]
      by_cases hcross : i + 1 < n.entries.length
      · have hinc : iterInc store ⟨some n, (i : Int)⟩ =
            ⟨some n, ((i + 1 : Nat) : Int)⟩ := by
          rw [iterInc, if_neg (by simp [h1])]
          simp only []
          rw [if_neg (by omega)]
          simp
        rw [iterCollect, if_neg (by simp [h1]), hget]
        simp only [hinc]
        rw [ihf (i + 1) hcross (by simp [leafFlat] at hfuel ⊢; omega)]
        rw [List.drop_eq_getElem_cons hi]
        have hne2 : n.entries.drop (i + 1) ++ leafFlat rest ≠ [] := by
          have := hchain.flat_ne_nil
          simp_all
        cases hdd : n.entries.drop (i + 1) ++ leafFlat rest with
        | nil => exact absurd hdd hne2
        | cons b t =>
          rw [List.cons_append, hdd, List.dropLast_cons₂]
      · obtain ⟨m, rest2, rfl, hfind2, hne2⟩ := hchain.head_shape
        have hlast : i + 1 = n.entries.length := by omega
        have hinc : iterInc store ⟨some n, (i : Int)⟩ = ⟨some m, (0 : Int)⟩ := by
          rw [iterInc, if_neg (by simp [h1])]
          simp only []
          rw [if_pos (by omega), hfind2]
        rw [iterCollect, if_neg (by simp [h1]), hget]
        simp only [hinc]
        have hz : ((0 : Nat) : Int) = (0 : Int) := rfl
        rw [← hz, ih m rest2 rfl fuel 0 (List.length_pos.mpr hne2)
          (by simp [leafFlat] at hfuel ⊢; omega)]
        have hdrop1 : n.entries.drop i = [n.entries[i]] := by
          rw [List.drop_eq_getElem_cons hi,
            List.drop_eq_nil_of_le (by omega)]
        rw [hdrop1]
        have hfr : leafFlat (m :: rest2) ≠ [] := by
          simp only [leafFlat, List.map_cons, List.flatten_cons]
          intro hcon
          exact hne2 (List.append_eq_nil.mp hcon).1
        cases hff : leafFlat (m :: rest2) with
        | nil => exact absurd hff hfr
        | cons b t =>
          simp only [List.drop_zero, List.singleton_append, leafFlat, List.map_cons,
            List.flatten_cons] at hff ⊢
          rw [hff, List.dropLast_cons₂]

/-- C6 counterexample: on the tree consisting of the single leaf page 1
with entries (1, 10) and (2, 20), iterating from begin with the standard
loop (yield then advance while not isEnd) produces only (1, 10); the last
entry of the final leaf is never yielded because isEnd already holds while
the iterator stands on it. -/
theorem iterator_drops_last_entry :
    iterCollect [((1 : Int), ⟨[(1, 10), (2, 20)], -1⟩)] 3
        ⟨some ⟨[(1, 10), (2, 20)], -1⟩, 0⟩ = [(1, 10)] ∧
    (2, 20) ∉ iterCollect [((1 : Int), ⟨[(1, 10), (2, 20)], -1⟩)] 3
        ⟨some ⟨[(1, 10), (2, 20)], -1⟩, 0⟩ := by
  decide

/-- C6 amended: for every leaf chain, iterating from begin until isEnd
yields every stored pair EXCEPT the last entry of the final leaf, in
ascending key order, each exactly once. -/
theorem iterator_yields_all_but_last (store : LeafStore) (pid : Int)
    (n : LeafPage) (rest : List LeafPage)
    (h : ChainOk store pid (n :: rest)) (fuel : Nat)
    (hfuel : (leafFlat (n :: rest)).length ≤ fuel)
    (hsorted : List.Pairwise (· < ·) ((leafFlat (n :: rest)).map Prod.fst)) :
    iterCollect store fuel ⟨some n, 0⟩ = (leafFlat (n :: rest)).dropLast ∧
    List.Pairwise (· < ·)
      ((iterCollect store fuel ⟨some n, 0⟩).map Prod.fst) := by
  have hne : n.entries ≠ [] := by
    obtain ⟨n2, r2, heq, hfind, hne2⟩ := h.head_shape
    injection heq with e1 e2
    exact e1 ▸ hne2
  have hlen0 : 0 < n.entries.length := List.length_pos.mpr hne
  have hmain := iterCollect_chain store pid (n :: rest) h n rest rfl fuel 0 hlen0
    (by omega)
  have hflat : n.entries.drop 0 ++ leafFlat rest = leafFlat (n :: rest) := by
    simp [leafFlat]
  rw [hflat] at hmain
  simp only [Nat.cast_zero] at hmain
  refine ⟨hmain, ?_⟩
  rw [hmain, List.map_dropLast]
  exact List.Pairwise.sublist (List.dropLast_sublist _) hsorted

theorem iterator_yields_all_but_last_witness :
    iterCollect [((1 : Int), ⟨[(1, 10), (2, 20)], 2⟩), ((2 : Int), ⟨[(3, 30)], -1⟩)] 3
        ⟨some ⟨[(1, 10), (2, 20)], 2⟩, 0⟩ = [(1, 10), (2, 20)] := by
  have h := iterator_yields_all_but_last
    [((1 : Int), ⟨[(1, 10), (2, 20)], 2⟩), ((2 : Int), ⟨[(3, 30)], -1⟩)] 1
    ⟨[(1, 10), (2, 20)], 2⟩ [⟨[(3, 30)], -1⟩]
    (ChainOk.cons _ _ _ (by decide) (by decide) (by decide)
      (ChainOk.last _ _ (by decide) (by decide) (by decide)))
    3 (by decide) (by decide)
  rw [h.1]
  rfl
